import Mathlib

/-!
Verification of the two Advent-of-Code 2023 solvers in this repository:
`d1.py` (calibration-value decoding) and `d2.py` (dice-game validation and
power computation).  Strings are embedded as `List Char`, Python integers as
`Int` (or `Nat` where the source can only produce non-negative values), and
fallible operations as `Option`.
-/

set_option autoImplicit false

/-! ### Embedding of `d1.py` -/

/-- The list `numbers` from `decode_line`: the ten ASCII digit characters. -/
def numbers : List Char := ['0', '1', '2', '3', '4', '5', '6', '7', '8', '9']

/-- The list `word_numbers` from `decode_line`: the spelled-out digit words. -/
def word_numbers : List (List Char) :=
  [['o', 'n', 'e'], ['t', 'w', 'o'], ['t', 'h', 'r', 'e', 'e'],
   ['f', 'o', 'u', 'r'], ['f', 'i', 'v', 'e'], ['s', 'i', 'x'],
   ['s', 'e', 'v', 'e', 'n'], ['e', 'i', 'g', 'h', 't'], ['n', 'i', 'n', 'e']]

/-- `int(c)` for a single digit character `c`. -/
def digitVal (c : Char) : Nat := c.toNat - 48

/-- Python's substring test `w in s`. -/
def substr_in (w : List Char) : List Char → Bool
  | [] => w.isEmpty
  | c :: rest => w.isPrefixOf (c :: rest) || substr_in w rest

/-- The slice `line[i:i+L]` used for the left-hand word check. -/
def leftWord (line : List Char) (i L : Nat) : List Char :=
  (line.drop i).take L

/-- The slice `line[-L:]` (when `i = 0`) or `line[-(i+L+1):-i]` (when `i > 0`)
used for the right-hand word check; Python's clamping of out-of-range slice
bounds coincides with truncated `Nat` subtraction. -/
def rightWord (line : List Char) (i L : Nat) : List Char :=
  if i = 0 then line.drop (line.length - L)
  else (line.take (line.length - i)).drop (line.length - (i + L + 1))

/-- `if first_num is None and b: first_num = v` on the state
`(first_num, last_num)`. -/
def setF (st : Option Nat × Option Nat) (b : Bool) (v : Nat) :
    Option Nat × Option Nat :=
  match st.1 with
  | none => if b then (some v, st.2) else st
  | some _ => st

/-- `if last_num is None and b: last_num = v`. -/
def setS (st : Option Nat × Option Nat) (b : Bool) (v : Nat) :
    Option Nat × Option Nat :=
  match st.2 with
  | none => if b then (st.1, some v) else st
  | some _ => st

/-- `first_num is not None and last_num is not None`. -/
def bothSome (st : Option Nat × Option Nat) : Bool :=
  st.1.isSome && st.2.isSome

/-- The inner `for number, word_number in enumerate(word_numbers)` loop of
`decode_line`, including its early `break` once both numbers are found. -/
def wordLoop (line : List Char) (i : Nat) :
    List (Nat × List Char) → Option Nat × Option Nat → Option Nat × Option Nat
  | [], st => st
  | (number, w) :: rest, st =>
    let st1 := setF st (substr_in w (leftWord line i w.length)) (number + 1)
    let st2 := setS st1 (substr_in w (rightWord line i w.length)) (number + 1)
    if bothSome st2 then st2 else wordLoop line i rest st2

/-- The body of `decode_line`'s scanning loop at index `i`: the two digit
checks followed (when `word_correction` is set) by the word loop. -/
def scanStep (line : List Char) (wc : Bool) (i : Nat)
    (st : Option Nat × Option Nat) : Option Nat × Option Nat :=
  let lc := line.getD i ' '
  let rc := line.getD (line.length - 1 - i) ' '
  let st1 := setF st (numbers.contains lc) (digitVal lc)
  let st2 := setS st1 (numbers.contains rc) (digitVal rc)
  if wc then wordLoop line i word_numbers.enum st2 else st2

/-- The `for i in range(len(line))` loop of `decode_line`, with its early
`break` once both numbers are found. -/
def scanLoop (line : List Char) (wc : Bool) :
    List Nat → Option Nat × Option Nat → Option Nat × Option Nat
  | [], st => st
  | i :: rest, st =>
    let st2 := scanStep line wc i st
    if bothSome st2 then st2 else scanLoop line wc rest st2

/-- The scanning phase of `decode_line`: the final `(first_num, last_num)`. -/
def scan (line : List Char) (wc : Bool) : Option Nat × Option Nat :=
  scanLoop line wc (List.range line.length) (none, none)

/-- `int(ds)` for a list of digit characters. -/
def digitsToNat (ds : List Char) : Nat :=
  ds.foldl (fun acc c => 10 * acc + digitVal c) 0

/-- `int(f"{a}{b}")`: print both numbers in decimal, concatenate, re-parse. -/
def intConcat (a b : Nat) : Nat :=
  digitsToNat (Nat.toDigits 10 a ++ Nat.toDigits 10 b)

/-- `decode_line` from `d1.py`. -/
def decode_line (line : List Char) (wc : Bool) : Option Nat :=
  match scan line wc with
  | (none, none) => none
  | (none, some b) => some (intConcat b b)
  | (some a, none) => some (intConcat a a)
  | (some a, some b) => some (intConcat a b)

/-- Python's `str.isspace` characters relevant to `str.strip()`. -/
def pyIsSpace (c : Char) : Bool :=
  c == ' ' || c == '\t' || c == '\n' || c == '\x0b' || c == '\x0c' || c == '\r'

/-- Python's `s.strip()`. -/
def pyStrip (s : List Char) : List Char :=
  ((s.dropWhile pyIsSpace).reverse.dropWhile pyIsSpace).reverse

/-- One iteration of `sum_lines`: `total += decode_line(line.strip(), wc)`.
The Python source has no guard, so a line decoding to `None` raises a
`TypeError`; this is modelled by the absorbing `none`. -/
def sumStep (wc : Bool) (total : Option Nat) (l : List Char) : Option Nat :=
  match total, decode_line (pyStrip l) wc with
  | some t, some v => some (t + v)
  | _, _ => none

/-- `sum_lines` from `d1.py` (the `print` call has no effect on the total). -/
def sum_lines (lines : List (List Char)) (wc : Bool) : Option Nat :=
  lines.foldl (sumStep wc) (some 0)

/-- Convenience: the character list of a string literal. -/
def chars (s : String) : List Char := s.data

/-! ### Embedding of `d2.py` -/

/-- The `DiceGroup` dataclass: `DiceGroup(num_blue, num_green, num_red)`. -/
structure DiceGroup where
  num_blue : Int
  num_green : Int
  num_red : Int
deriving DecidableEq

/-- `DiceGroup.__gt__`: any single colour strictly greater. -/
def DiceGroup.gt (a b : DiceGroup) : Bool :=
  decide (a.num_blue > b.num_blue) || decide (a.num_green > b.num_green) ||
    decide (a.num_red > b.num_red)

/-- `DiceGroup.__lt__`: any single colour strictly smaller. -/
def DiceGroup.lt (a b : DiceGroup) : Bool :=
  decide (a.num_blue < b.num_blue) || decide (a.num_green < b.num_green) ||
    decide (a.num_red < b.num_red)

/-- `DiceGroup.power`. -/
def DiceGroup.power (g : DiceGroup) : Int :=
  g.num_red * g.num_blue * g.num_green

/-- The loop body of `max_dice_group`: update the running per-colour maxima
kept in the `counts` dictionary, as the triple `(red, green, blue)`. -/
def mdgStep (c : Int × Int × Int) (g : DiceGroup) : Int × Int × Int :=
  (max c.1 g.num_red, max c.2.1 g.num_green, max c.2.2 g.num_blue)

/-- `max_dice_group` from `d2.py`: fold over the groups keeping the running
per-colour maxima, then return `DiceGroup(counts['blue'], counts['green'],
counts['red'])`. -/
def max_dice_group (groups : List DiceGroup) : DiceGroup :=
  let counts := groups.foldl mdgStep (0, 0, 0)
  ⟨counts.2.2, counts.2.1, counts.1⟩

/-- `validate_game` from `d2.py`, with its early `return False`. -/
def validate_game (game : List DiceGroup) (bag : DiceGroup) : Bool :=
  match game with
  | [] => true
  | g :: rest => if DiceGroup.gt g bag then false else validate_game rest bag

/-- Python's `s.split(sep)` for a single-character separator: splits at every
occurrence, keeping empty pieces; never returns an empty list. -/
def pySplit (sep : Char) : List Char → List (List Char)
  | [] => [[]]
  | c :: rest =>
    let r := pySplit sep rest
    if c = sep then [] :: r
    else
      match r with
      | h :: t => (c :: h) :: t
      | [] => [[c]]

/-- `int(n)` on the digit part: all characters must be digits. -/
def parseDigitsAll (ds : List Char) : Option Nat :=
  if ds ≠ [] ∧ ds.all (fun c => numbers.contains c) then some (digitsToNat ds)
  else none

/-- Python's `int(s)` on a decimal string: strip whitespace, optional sign,
then digits; anything else raises (`none`). -/
def pyIntParse (s : List Char) : Option Int :=
  match pyStrip s with
  | '-' :: ds =>
    match parseDigitsAll ds with
    | some n => some (-(n : Int))
    | none => none
  | '+' :: ds =>
    match parseDigitsAll ds with
    | some n => some ((n : Int))
    | none => none
  | ds =>
    match parseDigitsAll ds with
    | some n => some ((n : Int))
    | none => none

/-- `collection.strip().split(' ')[0]`. -/
def firstTok (coll : List Char) : List Char :=
  (pySplit ' ' (pyStrip coll)).headD []

/-- One iteration of `for collection in ...` in `parse_game_string`: try the
colour names in the dictionary's insertion order `blue`, `green`, `red`; on
the first name contained in the token, overwrite that colour's count with the
parsed leading number and `break`. -/
def parseColl (counts : Int × Int × Int) (coll : List Char) :
    Option (Int × Int × Int) :=
  if substr_in ['b', 'l', 'u', 'e'] coll then
    match pyIntParse (firstTok coll) with
    | some n => some (n, counts.2.1, counts.2.2)
    | none => none
  else if substr_in ['g', 'r', 'e', 'e', 'n'] coll then
    match pyIntParse (firstTok coll) with
    | some n => some (counts.1, n, counts.2.2)
    | none => none
  else if substr_in ['r', 'e', 'd'] coll then
    match pyIntParse (firstTok coll) with
    | some n => some (counts.1, counts.2.1, n)
    | none => none
  else some counts

/-- The `for collection in game.strip().split(',')` loop. -/
def parseCollList : List (List Char) → Int × Int × Int → Option (Int × Int × Int)
  | [], counts => some counts
  | coll :: rest, counts =>
    match parseColl counts coll with
    | some c2 => parseCollList rest c2
    | none => none

/-- One `yield`ed `DiceGroup` of `parse_game_string`: counts are kept as
`(blue, green, red)` and emitted as `DiceGroup(blue, green, red)`. -/
def parseDraw (game : List Char) : Option DiceGroup :=
  match parseCollList (pySplit ',' (pyStrip game)) (0, 0, 0) with
  | some c => some ⟨c.1, c.2.1, c.2.2⟩
  | none => none

/-- All draws of a game, in line order. -/
def parseDrawList : List (List Char) → Option (List DiceGroup)
  | [] => some []
  | g :: rest =>
    match parseDraw g, parseDrawList rest with
    | some d, some ds => some (d :: ds)
    | _, _ => none

/-- `parse_game_string` from `d2.py`: `game_string.split(":")[1]` (an
`IndexError`, i.e. `none`, when the line has no colon), stripped, split on
semicolons, one `DiceGroup` per draw. -/
def parse_game_string (s : List Char) : Option (List DiceGroup) :=
  match pySplit ':' s with
  | _ :: rem :: _ => parseDrawList (pySplit ';' (pyStrip rem))
  | _ => none

/-- Everything after the first colon of the line, when a colon exists. -/
def afterFirstColon : List Char → Option (List Char)
  | [] => none
  | c :: rest => if c = ':' then some rest else afterFirstColon rest

/-- Modelled from the spec: the parse described by the specification, which
"splits the line on the first colon ... and splits the entire remainder of
the line on semicolons"; it differs from `parse_game_string` only in keeping
the whole remainder after the first colon. -/
def parse_game_string_claimed (s : List Char) : Option (List DiceGroup) :=
  match afterFirstColon s with
  | some rem => parseDrawList (pySplit ';' (pyStrip rem))
  | none => none

/-! ### Specification-side predicates -/

/-- `w` occurs as a contiguous substring of `s`. -/
def occursIn (w s : List Char) : Prop := ∃ u v, s = u ++ w ++ v

/-- At scan index `i` every check feeding `first_num` fails. -/
def leftFail (line : List Char) (wc : Bool) (i : Nat) : Prop :=
  numbers.contains (line.getD i ' ') = false ∧
    (wc = true → ∀ p ∈ word_numbers.enum,
      substr_in p.2 (leftWord line i p.2.length) = false)

/-- At scan index `i` every check feeding `last_num` fails. -/
def rightFail (line : List Char) (wc : Bool) (i : Nat) : Prop :=
  numbers.contains (line.getD (line.length - 1 - i) ' ') = false ∧
    (wc = true → ∀ p ∈ word_numbers.enum,
      substr_in p.2 (rightWord line i p.2.length) = false)

/-- The line offers nothing to find: no digit character, and (under word
correction) no spelled-out digit word. -/
def noTrigger (line : List Char) (wc : Bool) : Prop :=
  (∀ c ∈ line, c ∉ numbers) ∧
    (wc = true → ∀ w ∈ word_numbers, ¬ occursIn w line)

/-- Both components of the scan state, when present, are single digits. -/
def boundSt (st : Option Nat × Option Nat) : Prop :=
  (∀ a, st.1 = some a → a ≤ 9) ∧ (∀ b, st.2 = some b → b ≤ 9)

/-! ### Substring lemmas -/

theorem isPrefixOf_iff (w : List Char) :
    ∀ s : List Char, w.isPrefixOf s = true ↔ ∃ t, s = w ++ t := by
  induction w with
  | nil => intro s; simp [List.isPrefixOf]
  | cons c cs ih =>
    intro s
    cases s with
    | nil => simp [List.isPrefixOf]
    | cons d ds =>
      simp only [List.isPrefixOf, Bool.and_eq_true, beq_iff_eq, ih,
        List.cons_append, List.cons.injEq]
      constructor
      · rintro ⟨rfl, t, rfl⟩; exact ⟨t, rfl, rfl⟩
      · rintro ⟨t, rfl, rfl⟩; exact ⟨rfl, t, rfl⟩

theorem substr_in_iff (w : List Char) :
    ∀ s : List Char, substr_in w s = true ↔ occursIn w s := by
  intro s
  induction s with
  | nil =>
    simp only [substr_in, occursIn, List.isEmpty_iff]
    constructor
    · rintro rfl; exact ⟨[], [], rfl⟩
    · rintro ⟨u, v, h⟩
      rcases List.append_eq_nil.mp h.symm with ⟨h1, h2⟩
      exact (List.append_eq_nil.mp h1).2
  | cons c rest ih =>
    simp only [substr_in, Bool.or_eq_true, isPrefixOf_iff, ih]
    constructor
    · rintro (⟨t, ht⟩ | ⟨u, v, hv⟩)
      · exact ⟨[], t, by simpa using ht⟩
      · exact ⟨c :: u, v, by simp [hv]⟩
    · rintro ⟨u, v, hv⟩
      cases u with
      | nil => exact Or.inl ⟨v, by simpa using hv⟩
      | cons x u' =>
        simp only [List.cons_append, List.cons.injEq] at hv
        exact Or.inr ⟨u', v, hv.2⟩

theorem occursIn_self (w : List Char) : occursIn w w :=
  ⟨[], [], by simp⟩

theorem occursIn_trans {w s l : List Char} (h1 : occursIn w s)
    (h2 : occursIn s l) : occursIn w l := by
  obtain ⟨u, v, rfl⟩ := h1
  obtain ⟨x, y, rfl⟩ := h2
  exact ⟨x ++ u, v ++ y, by simp⟩

theorem occursIn_drop (l : List Char) (n : Nat) : occursIn (l.drop n) l :=
  ⟨l.take n, [], by simp⟩

theorem occursIn_dropTake (l : List Char) (i L : Nat) :
    occursIn ((l.drop i).take L) l := by
  refine occursIn_trans ?_ (occursIn_drop l i)
  exact ⟨[], (l.drop i).drop L, by simp⟩

theorem occursIn_takeDrop (l : List Char) (a e : Nat) :
    occursIn ((l.take e).drop a) l := by
  refine occursIn_trans (occursIn_drop (l.take e) a) ?_
  exact ⟨[], l.drop e, by simp⟩

theorem leftWord_occursIn (line : List Char) (i L : Nat) :
    occursIn (leftWord line i L) line :=
  occursIn_dropTake line i L

theorem rightWord_occursIn (line : List Char) (i L : Nat) :
    occursIn (rightWord line i L) line := by
  unfold rightWord
  split
  · exact occursIn_drop line (line.length - L)
  · exact occursIn_takeDrop line (line.length - (i + L + 1)) (line.length - i)

theorem contains_iff (l : List Char) (c : Char) :
    l.contains c = true ↔ c ∈ l := by
  simp [List.contains, List.elem_iff]

/-! ### State-update lemmas -/

theorem setF_snd (st : Option Nat × Option Nat) (b : Bool) (v : Nat) :
    (setF st b v).2 = st.2 := by
  rcases st with ⟨f, l⟩
  cases f <;> cases b <;> simp [setF]

theorem setS_fst (st : Option Nat × Option Nat) (b : Bool) (v : Nat) :
    (setS st b v).1 = st.1 := by
  rcases st with ⟨f, l⟩
  cases l <;> cases b <;> simp [setS]

theorem setF_fst_none (st : Option Nat × Option Nat) (b : Bool) (v : Nat) :
    (setF st b v).1 = none ↔ st.1 = none ∧ b = false := by
  rcases st with ⟨f, l⟩
  cases f <;> cases b <;> simp [setF]

theorem setS_snd_none (st : Option Nat × Option Nat) (b : Bool) (v : Nat) :
    (setS st b v).2 = none ↔ st.2 = none ∧ b = false := by
  rcases st with ⟨f, l⟩
  cases l <;> cases b <;> simp [setS]

theorem setF_fst_some (st : Option Nat × Option Nat) (b : Bool) (v a : Nat)
    (h : (setF st b v).1 = some a) : st.1 = some a ∨ a = v := by
  rcases st with ⟨f, l⟩
  cases f <;> cases b <;> simp_all [setF]

theorem setS_snd_some (st : Option Nat × Option Nat) (b : Bool) (v a : Nat)
    (h : (setS st b v).2 = some a) : st.2 = some a ∨ a = v := by
  rcases st with ⟨f, l⟩
  cases l <;> cases b <;> simp_all [setS]

theorem stepFL_fst_none (st : Option Nat × Option Nat) (bl br : Bool)
    (v w : Nat) : (setS (setF st bl v) br w).1 = none ↔
      st.1 = none ∧ bl = false := by
  rw [setS_fst, setF_fst_none]

theorem stepFL_snd_none (st : Option Nat × Option Nat) (bl br : Bool)
    (v w : Nat) : (setS (setF st bl v) br w).2 = none ↔
      st.2 = none ∧ br = false := by
  rw [setS_snd_none, setF_snd]

theorem ifBoth_fst_none (s2 alt : Option Nat × Option Nat) (P : Prop)
    (halt : alt.1 = none ↔ s2.1 = none ∧ P) :
    (if bothSome s2 = true then s2 else alt).1 = none ↔ s2.1 = none ∧ P := by
  split_ifs with hb
  · constructor
    · intro h; simp [bothSome, h] at hb
    · rintro ⟨h1, -⟩; simp [bothSome, h1] at hb
  · exact halt

theorem ifBoth_snd_none (s2 alt : Option Nat × Option Nat) (P : Prop)
    (halt : alt.2 = none ↔ s2.2 = none ∧ P) :
    (if bothSome s2 = true then s2 else alt).2 = none ↔ s2.2 = none ∧ P := by
  split_ifs with hb
  · constructor
    · intro h; simp [bothSome, h] at hb
    · rintro ⟨h1, -⟩; simp [bothSome, h1] at hb
  · exact halt

theorem wordLoop_fst_none (line : List Char) (i : Nat) :
    ∀ (ps : List (Nat × List Char)) (st : Option Nat × Option Nat),
    (wordLoop line i ps st).1 = none ↔
      st.1 = none ∧
        ∀ p ∈ ps, substr_in p.2 (leftWord line i p.2.length) = false := by
  intro ps
  induction ps with
  | nil => intro st; simp [wordLoop]
  | cons p rest ih =>
    obtain ⟨n, w⟩ := p
    intro st
    simp only [wordLoop]
    rw [ifBoth_fst_none _ _ _ (ih _), stepFL_fst_none]
    simp only [List.forall_mem_cons]
    tauto

theorem wordLoop_snd_none (line : List Char) (i : Nat) :
    ∀ (ps : List (Nat × List Char)) (st : Option Nat × Option Nat),
    (wordLoop line i ps st).2 = none ↔
      st.2 = none ∧
        ∀ p ∈ ps, substr_in p.2 (rightWord line i p.2.length) = false := by
  intro ps
  induction ps with
  | nil => intro st; simp [wordLoop]
  | cons p rest ih =>
    obtain ⟨n, w⟩ := p
    intro st
    simp only [wordLoop]
    rw [ifBoth_snd_none _ _ _ (ih _), stepFL_snd_none]
    simp only [List.forall_mem_cons]
    tauto

theorem scanStep_fst_none (line : List Char) (wc : Bool) (i : Nat)
    (st : Option Nat × Option Nat) :
    (scanStep line wc i st).1 = none ↔ st.1 = none ∧ leftFail line wc i := by
  unfold scanStep leftFail
  cases wc with
  | false =>
    simp only [Bool.false_eq_true, if_false]
    rw [stepFL_fst_none]
    simp
  | true =>
    simp only [if_true]
    rw [wordLoop_fst_none, stepFL_fst_none]
    simp only [forall_const]
    tauto

theorem scanStep_snd_none (line : List Char) (wc : Bool) (i : Nat)
    (st : Option Nat × Option Nat) :
    (scanStep line wc i st).2 = none ↔ st.2 = none ∧ rightFail line wc i := by
  unfold scanStep rightFail
  cases wc with
  | false =>
    simp only [Bool.false_eq_true, if_false]
    rw [stepFL_snd_none]
    simp
  | true =>
    simp only [if_true]
    rw [wordLoop_snd_none, stepFL_snd_none]
    simp only [forall_const]
    tauto

theorem scanLoop_fst_none (line : List Char) (wc : Bool) :
    ∀ (is : List Nat) (st : Option Nat × Option Nat),
    (scanLoop line wc is st).1 = none ↔
      st.1 = none ∧ ∀ i ∈ is, leftFail line wc i := by
  intro is
  induction is with
  | nil => intro st; simp [scanLoop]
  | cons i rest ih =>
    intro st
    simp only [scanLoop]
    rw [ifBoth_fst_none _ _ _ (ih _), scanStep_fst_none]
    simp only [List.forall_mem_cons]
    tauto

theorem scanLoop_snd_none (line : List Char) (wc : Bool) :
    ∀ (is : List Nat) (st : Option Nat × Option Nat),
    (scanLoop line wc is st).2 = none ↔
      st.2 = none ∧ ∀ i ∈ is, rightFail line wc i := by
  intro is
  induction is with
  | nil => intro st; simp [scanLoop]
  | cons i rest ih =>
    intro st
    simp only [scanLoop]
    rw [ifBoth_snd_none _ _ _ (ih _), scanStep_snd_none]
    simp only [List.forall_mem_cons]
    tauto

theorem scan_fst_none_iff (line : List Char) (wc : Bool) :
    (scan line wc).1 = none ↔
      ∀ i ∈ List.range line.length, leftFail line wc i := by
  unfold scan
  rw [scanLoop_fst_none]
  simp

theorem scan_snd_none_iff (line : List Char) (wc : Bool) :
    (scan line wc).2 = none ↔
      ∀ i ∈ List.range line.length, rightFail line wc i := by
  unfold scan
  rw [scanLoop_snd_none]
  simp

/-! ### Bound lemmas: found values are single digits -/

theorem digitVal_le9 : ∀ c ∈ numbers, digitVal c ≤ 9 := by decide

theorem enum_val_le9 : ∀ p ∈ word_numbers.enum, p.1 + 1 ≤ 9 := by decide

theorem setF_bound (st : Option Nat × Option Nat) (b : Bool) (v : Nat)
    (h : boundSt st) (hv : b = true → v ≤ 9) : boundSt (setF st b v) := by
  obtain ⟨h1, h2⟩ := h
  constructor
  · intro a ha
    rcases setF_fst_some st b v a ha with hs | rfl
    · exact h1 a hs
    · rcases st with ⟨f, l⟩
      cases f with
      | none =>
        cases b with
        | false => simp [setF] at ha
        | true => exact hv rfl
      | some x => exact h1 a (by simpa [setF] using ha)
  · intro b' hb'
    rw [setF_snd] at hb'
    exact h2 b' hb'

theorem setS_bound (st : Option Nat × Option Nat) (b : Bool) (v : Nat)
    (h : boundSt st) (hv : b = true → v ≤ 9) : boundSt (setS st b v) := by
  obtain ⟨h1, h2⟩ := h
  constructor
  · intro a ha
    rw [setS_fst] at ha
    exact h1 a ha
  · intro a ha
    rcases setS_snd_some st b v a ha with hs | rfl
    · exact h2 a hs
    · rcases st with ⟨f, l⟩
      cases l with
      | none =>
        cases b with
        | false => simp [setS] at ha
        | true => exact hv rfl
      | some x => exact h2 a (by simpa [setS] using ha)

theorem wordLoop_bound (line : List Char) (i : Nat) :
    ∀ (ps : List (Nat × List Char)) (st : Option Nat × Option Nat),
    (∀ p ∈ ps, p.1 + 1 ≤ 9) → boundSt st → boundSt (wordLoop line i ps st) := by
  intro ps
  induction ps with
  | nil => intro st _ h; simpa [wordLoop] using h
  | cons p rest ih =>
    obtain ⟨n, w⟩ := p
    intro st hps h
    have hn : n + 1 ≤ 9 := by simpa using hps (n, w) (List.mem_cons_self _ _)
    have h2 : boundSt (setS (setF st (substr_in w (leftWord line i w.length))
        (n + 1)) (substr_in w (rightWord line i w.length)) (n + 1)) :=
      setS_bound _ _ _ (setF_bound _ _ _ h (fun _ => hn)) (fun _ => hn)
    simp only [wordLoop]
    split_ifs with hb
    · exact h2
    · exact ih _ (fun p hp => hps p (List.mem_cons_of_mem _ hp)) h2

theorem scanStep_bound (line : List Char) (wc : Bool) (i : Nat)
    (st : Option Nat × Option Nat) (h : boundSt st) :
    boundSt (scanStep line wc i st) := by
  have hd : ∀ c : Char, numbers.contains c = true → digitVal c ≤ 9 :=
    fun c hc => digitVal_le9 c ((contains_iff numbers c).mp hc)
  have h2 : boundSt (setS (setF st (numbers.contains (line.getD i ' '))
      (digitVal (line.getD i ' ')))
      (numbers.contains (line.getD (line.length - 1 - i) ' '))
      (digitVal (line.getD (line.length - 1 - i) ' '))) :=
    setS_bound _ _ _ (setF_bound _ _ _ h (hd _)) (hd _)
  unfold scanStep
  cases wc with
  | false => simpa using h2
  | true =>
    simp only [if_true]
    exact wordLoop_bound line i _ _ enum_val_le9 h2

theorem scanLoop_bound (line : List Char) (wc : Bool) :
    ∀ (is : List Nat) (st : Option Nat × Option Nat),
    boundSt st → boundSt (scanLoop line wc is st) := by
  intro is
  induction is with
  | nil => intro st h; simpa [scanLoop] using h
  | cons i rest ih =>
    intro st h
    simp only [scanLoop]
    split_ifs with hb
    · exact scanStep_bound line wc i st h
    · exact ih _ (scanStep_bound line wc i st h)

theorem scan_bound (line : List Char) (wc : Bool) : boundSt (scan line wc) :=
  scanLoop_bound line wc _ _ (by constructor <;> intro a ha <;> simp at ha)

/-! ### Characterising when the scan finds nothing -/

theorem wn_ne_nil : ∀ w ∈ word_numbers, w ≠ [] := by decide

theorem wn_enum : ∀ w ∈ word_numbers, ∃ p ∈ word_numbers.enum, p.2 = w := by
  decide

theorem enum_snd_mem : ∀ p ∈ word_numbers.enum, p.2 ∈ word_numbers := by decide

theorem getD_mem_of_lt (l : List Char) (n : Nat) (d : Char)
    (h : n < l.length) : l.getD n d ∈ l := by
  rw [List.getD_eq_getElem l d h]
  exact List.getElem_mem h

theorem not_contains_of_not_mem (l : List Char) (c : Char) (h : c ∉ l) :
    l.contains c = false := by
  cases hc : l.contains c with
  | false => rfl
  | true => exact absurd ((contains_iff l c).mp hc) h

theorem leftFail_all_iff (line : List Char) (wc : Bool) :
    (∀ i ∈ List.range line.length, leftFail line wc i) ↔ noTrigger line wc := by
  constructor
  · intro h
    constructor
    · intro c hc hmem
      obtain ⟨j, hj, hget⟩ := List.mem_iff_getElem.mp hc
      have hL := (h j (List.mem_range.mpr hj)).1
      rw [List.getD_eq_getElem line ' ' hj, hget] at hL
      have hct := (contains_iff numbers c).mpr hmem
      rw [hL] at hct
      exact Bool.false_ne_true hct
    · rintro hwc w hw ⟨u, v, hline⟩
      obtain ⟨p, hp, hp2⟩ := wn_enum w hw
      have hLpos : 0 < w.length := List.length_pos.mpr (wn_ne_nil w hw)
      have hj : u.length < line.length := by
        subst hline; simp [List.length_append]; omega
      have hL := (h u.length (List.mem_range.mpr hj)).2 hwc p hp
      rw [hp2] at hL
      have hlw : leftWord line u.length w.length = w := by
        unfold leftWord
        subst hline
        rw [List.append_assoc, List.drop_left, List.take_left]
      rw [hlw] at hL
      have hss := (substr_in_iff w w).mpr (occursIn_self w)
      rw [hL] at hss
      exact Bool.false_ne_true hss
  · rintro ⟨hnd, hnw⟩ i hi
    constructor
    · exact not_contains_of_not_mem _ _
        (fun hm => hnd _ (getD_mem_of_lt line i ' ' (List.mem_range.mp hi)) hm)
    · intro hwc p hp
      cases hsb : substr_in p.2 (leftWord line i p.2.length) with
      | false => rfl
      | true =>
        exact absurd
          (occursIn_trans ((substr_in_iff _ _).mp hsb) (leftWord_occursIn line i _))
          (hnw hwc p.2 (enum_snd_mem p hp))

theorem rightFail_all_iff (line : List Char) (wc : Bool) :
    (∀ i ∈ List.range line.length, rightFail line wc i) ↔ noTrigger line wc := by
  constructor
  · intro h
    constructor
    · intro c hc hmem
      obtain ⟨j, hj, hget⟩ := List.mem_iff_getElem.mp hc
      have hi : line.length - 1 - j < line.length := by omega
      have hL := (h (line.length - 1 - j) (List.mem_range.mpr hi)).1
      have hjj : line.length - 1 - (line.length - 1 - j) = j := by omega
      rw [hjj, List.getD_eq_getElem line ' ' hj, hget] at hL
      have hct := (contains_iff numbers c).mpr hmem
      rw [hL] at hct
      exact Bool.false_ne_true hct
    · rintro hwc w hw ⟨u, v, hline⟩
      obtain ⟨p, hp, hp2⟩ := wn_enum w hw
      have hLpos : 0 < w.length := List.length_pos.mpr (wn_ne_nil w hw)
      cases v with
      | nil =>
        have h0 : 0 < line.length := by
          subst hline; simp [List.length_append]; omega
        have hL := (h 0 (List.mem_range.mpr h0)).2 hwc p hp
        rw [hp2] at hL
        have hrw : rightWord line 0 w.length = w := by
          unfold rightWord
          rw [if_pos rfl]
          subst hline
          have hlen : (u ++ w ++ []).length - w.length = u.length := by
            simp [List.length_append]
          rw [hlen, List.append_nil, List.drop_left]
        rw [hrw] at hL
        have hss := (substr_in_iff w w).mpr (occursIn_self w)
        rw [hL] at hss
        exact Bool.false_ne_true hss
      | cons x v' =>
        have hi : (x :: v').length < line.length := by
          subst hline; simp [List.length_append]; omega
        have hL := (h (x :: v').length (List.mem_range.mpr hi)).2 hwc p hp
        rw [hp2] at hL
        have hi0 : (x :: v').length ≠ 0 := by simp
        have hrw : occursIn w (rightWord line (x :: v').length w.length) := by
          unfold rightWord
          rw [if_neg hi0]
          subst hline
          have hlen1 : (u ++ w ++ (x :: v')).length - (x :: v').length =
              u.length + w.length := by
            simp [List.length_append]; omega
          have htake : (u ++ w ++ (x :: v')).take (u.length + w.length) =
              u ++ w :=
            List.take_left' (by simp [List.length_append])
          have hlen2 : (u ++ w ++ (x :: v')).length -
              ((x :: v').length + w.length + 1) = u.length - 1 := by
            simp [List.length_append]; omega
          rw [hlen1, htake, hlen2,
            List.drop_append_of_le_length (by omega)]
          exact ⟨u.drop (u.length - 1), [], by simp⟩
        have hss := (substr_in_iff _ _).mpr hrw
        rw [hL] at hss
        exact Bool.false_ne_true hss
  · rintro ⟨hnd, hnw⟩ i hi
    constructor
    · have hj : line.length - 1 - i < line.length := by
        have := List.mem_range.mp hi; omega
      exact not_contains_of_not_mem _ _
        (fun hm => hnd _ (getD_mem_of_lt line _ ' ' hj) hm)
    · intro hwc p hp
      cases hsb : substr_in p.2 (rightWord line i p.2.length) with
      | false => rfl
      | true =>
        exact absurd
          (occursIn_trans ((substr_in_iff _ _).mp hsb) (rightWord_occursIn line i _))
          (hnw hwc p.2 (enum_snd_mem p hp))

theorem scan_fst_none_char (line : List Char) (wc : Bool) :
    (scan line wc).1 = none ↔ noTrigger line wc := by
  rw [scan_fst_none_iff, leftFail_all_iff]

theorem scan_snd_none_char (line : List Char) (wc : Bool) :
    (scan line wc).2 = none ↔ noTrigger line wc := by
  rw [scan_snd_none_iff, rightFail_all_iff]

/-! ### Decoded-value arithmetic -/

theorem intConcat_eq : ∀ a, a ≤ 9 → ∀ b, b ≤ 9 → intConcat a b = 10 * a + b := by
  decide

theorem intConcat_le99 : ∀ a, a ≤ 9 → ∀ b, b ≤ 9 → intConcat a b ≤ 99 := by
  decide

theorem getD_last (l : List Char) (d : Char) (h : l ≠ []) :
    l.getD (l.length - 1) d = l.getLast h := by
  have hlt : l.length - 1 < l.length := by
    have := List.length_pos.mpr h
    omega
  rw [List.getD_eq_getElem l d hlt, List.getLast_eq_getElem]

theorem setF_none_true (l : Option Nat) (v : Nat) :
    setF (none, l) true v = (some v, l) := rfl

theorem setS_none_true (f : Option Nat) (v : Nat) :
    setS (f, none) true v = (f, some v) := rfl

/-! ### Claim C1 -/

/-- C1: for every non-empty string of ASCII digit characters, `decode_line`
without word correction returns `10 * d_first + d_last`, where `d_first` and
`d_last` are the values of the first and last characters. -/
theorem decode_line_digit_only (c : Char) (rest : List Char)
    (h : ∀ x ∈ c :: rest, x ∈ numbers) :
    decode_line (c :: rest) false =
      some (10 * digitVal c + digitVal ((c :: rest).getLast (by simp))) := by
  have hne : (c :: rest : List Char) ≠ [] := by simp
  have hcnum : numbers.contains c = true :=
    (contains_iff _ _).mpr (h c (List.mem_cons_self _ _))
  have hlnum : numbers.contains ((c :: rest).getLast hne) = true :=
    (contains_iff _ _).mpr (h _ (List.getLast_mem hne))
  have hg0 : (c :: rest).getD 0 ' ' = c := rfl
  have hg1 : (c :: rest).getD ((c :: rest).length - 1 - 0) ' ' =
      (c :: rest).getLast hne := by
    rw [Nat.sub_zero]
    exact getD_last _ _ hne
  have hstep : scanStep (c :: rest) false 0 (none, none) =
      (some (digitVal c), some (digitVal ((c :: rest).getLast hne))) := by
    unfold scanStep
    simp only [hg0, hg1, hcnum, hlnum, setF_none_true, setS_none_true,
      Bool.false_eq_true, if_false]
  have hloop : scan (c :: rest) false =
      (some (digitVal c), some (digitVal ((c :: rest).getLast hne))) := by
    unfold scan
    rw [show (c :: rest).length = rest.length + 1 from rfl,
      List.range_succ_eq_map]
    simp only [scanLoop]
    rw [hstep]
    simp [bothSome]
  unfold decode_line
  rw [hloop]
  have hc9 : digitVal c ≤ 9 := digitVal_le9 c (h c (List.mem_cons_self _ _))
  have hl9 : digitVal ((c :: rest).getLast hne) ≤ 9 :=
    digitVal_le9 _ (h _ (List.getLast_mem hne))
  rw [show (match (some (digitVal c),
      some (digitVal ((c :: rest).getLast hne))) with
    | (none, none) => (none : Option Nat)
    | (none, some b) => some (intConcat b b)
    | (some a, none) => some (intConcat a a)
    | (some a, some b) => some (intConcat a b)) =
      some (intConcat (digitVal c) (digitVal ((c :: rest).getLast hne)))
    from rfl]
  rw [intConcat_eq _ hc9 _ hl9]

/-- C1 witness: the theorem applied to the concrete digit string `12`. -/
theorem decode_line_digit_only_witness : decode_line ['1', '2'] false = some 12 := by
  rw [decode_line_digit_only '1' ['2'] (by decide)]
  decide

/-! ### Claim C4 -/

/-- C4: with word correction enabled, spelled-out digit words are recognised
and on overlaps the first match in scan order wins on each side:
`eightwothree ↦ 83`, `zoneight234 ↦ 14`, `two1nine ↦ 29`. -/
theorem decode_line_word_overlaps :
    decode_line (chars ("eightwothree")) true = some 83 ∧
      decode_line (chars ("zoneight234")) true = some 14 ∧
      decode_line (chars ("two1nine")) true = some 29 := by
  refine ⟨?_, ?_, ?_⟩ <;> decide

/-! ### Claim C7 -/

/-- C7: on a line containing no ASCII digit and (when word correction is
enabled) no spelled-out digit word, `decode_line` returns `none`. -/
theorem decode_line_nothing_none (line : List Char) (wc : Bool)
    (h1 : ∀ c ∈ line, c ∉ numbers)
    (h2 : wc = true → ∀ w ∈ word_numbers, ¬ occursIn w line) :
    decode_line line wc = none := by
  have hf := (scan_fst_none_char line wc).mpr ⟨h1, h2⟩
  have hl := (scan_snd_none_char line wc).mpr ⟨h1, h2⟩
  unfold decode_line
  rcases hs : scan line wc with ⟨f, l⟩
  rw [hs] at hf hl
  simp only at hf hl
  subst hf
  subst hl
  rfl

/-- C7 witness: in particular `decode_line("", false) = none`. -/
theorem decode_line_nothing_none_witness : decode_line [] false = none :=
  decode_line_nothing_none [] false (by simp) (by simp)

/-! ### Claim C9 -/

/-- C9 counterexample: on the line `"0"` the decoder returns `0`, which is
not a two-digit number in the range 10–99. -/
theorem decode_line_zero_counterexample :
    decode_line ['0'] false = some 0 ∧ ¬ 10 ≤ (0 : Nat) := by
  refine ⟨?_, ?_⟩ <;> decide

/-- C9 (amended): every value returned by `decode_line` lies between 0 and 99
inclusive (it can be below 10 when the digit `0` is found). -/
theorem decode_line_le_99 (line : List Char) (wc : Bool) (v : Nat)
    (h : decode_line line wc = some v) : 0 ≤ v ∧ v ≤ 99 := by
  refine ⟨Nat.zero_le v, ?_⟩
  have hb := scan_bound line wc
  unfold decode_line at h
  rcases hs : scan line wc with ⟨f, l⟩
  rw [hs] at h hb
  obtain ⟨hb1, hb2⟩ := hb
  cases f with
  | none =>
    cases l with
    | none => simp at h
    | some b =>
      simp only [Option.some.injEq] at h
      exact h ▸ intConcat_le99 b (hb2 b rfl) b (hb2 b rfl)
  | some a =>
    cases l with
    | none =>
      simp only [Option.some.injEq] at h
      exact h ▸ intConcat_le99 a (hb1 a rfl) a (hb1 a rfl)
    | some b =>
      simp only [Option.some.injEq] at h
      exact h ▸ intConcat_le99 a (hb1 a rfl) b (hb2 b rfl)

/-- C9 witness: the amended bound at the concrete line `1abc2`. -/
theorem decode_line_le_99_witness : 0 ≤ 12 ∧ 12 ≤ 99 :=
  decode_line_le_99 (chars ("1abc2")) false 12 (by decide)

/-! ### Claim C10 -/

/-- C10: the forward search finds a first value iff the backward search finds
a last value; hence `decode_line` either returns `none` or concatenates two
found values, and the one-sided duplication branches are never taken. -/
theorem scan_sides_agree (line : List Char) (wc : Bool) :
    ((scan line wc).1 = none ↔ (scan line wc).2 = none) ∧
      (decode_line line wc = none ∨
        ∃ a b, scan line wc = (some a, some b) ∧
          decode_line line wc = some (intConcat a b)) := by
  have hiff : (scan line wc).1 = none ↔ (scan line wc).2 = none := by
    rw [scan_fst_none_char, scan_snd_none_char]
  refine ⟨hiff, ?_⟩
  rcases hs : scan line wc with ⟨f, l⟩
  rw [hs] at hiff
  cases f with
  | none =>
    have hl : l = none := by simpa using hiff.mp rfl
    subst hl
    left
    unfold decode_line
    rw [hs]
  | some a =>
    cases l with
    | none => simp at hiff
    | some b =>
      right
      refine ⟨a, b, rfl, ?_⟩
      unfold decode_line
      rw [hs]

/-! ### Claim C5 -/

theorem sumStep_none (wc : Bool) (l : List Char) : sumStep wc none l = none := by
  cases hd : decode_line (pyStrip l) wc <;> simp [sumStep, hd]

theorem sumStep_some_none (wc : Bool) (t : Nat) (l : List Char)
    (hd : decode_line (pyStrip l) wc = none) : sumStep wc (some t) l = none := by
  simp [sumStep, hd]

theorem sumStep_some_some (wc : Bool) (t : Nat) (l : List Char) (v : Nat)
    (hd : decode_line (pyStrip l) wc = some v) :
    sumStep wc (some t) l = some (t + v) := by
  simp [sumStep, hd]

theorem sum_foldl_none (wc : Bool) :
    ∀ lines : List (List Char), lines.foldl (sumStep wc) none = none := by
  intro lines
  induction lines with
  | nil => rfl
  | cons l rest ih =>
    rw [List.foldl_cons, sumStep_none]
    exact ih

theorem sum_foldl (wc : Bool) :
    ∀ (lines : List (List Char)) (t : Nat),
    (lines.foldl (sumStep wc) (some t) = none ↔
      ∃ l ∈ lines, decode_line (pyStrip l) wc = none) ∧
    ∀ s, lines.foldl (sumStep wc) (some t) = some s →
      s = t + (lines.map (fun l => (decode_line (pyStrip l) wc).getD 0)).sum := by
  intro lines
  induction lines with
  | nil =>
    intro t
    constructor
    · simp
    · intro s h
      simp only [List.foldl_nil, Option.some.injEq] at h
      simp [← h]
  | cons l rest ih =>
    intro t
    cases hd : decode_line (pyStrip l) wc with
    | none =>
      constructor
      · rw [List.foldl_cons, sumStep_some_none wc t l hd]
        simp only [sum_foldl_none wc rest, true_iff]
        exact ⟨l, List.mem_cons_self _ _, hd⟩
      · intro s h
        rw [List.foldl_cons, sumStep_some_none wc t l hd,
          sum_foldl_none wc rest] at h
        exact absurd h (by simp)
    | some v =>
      constructor
      · rw [List.foldl_cons, sumStep_some_some wc t l v hd, (ih (t + v)).1]
        simp [hd]
      · intro s h
        rw [List.foldl_cons, sumStep_some_some wc t l v hd] at h
        have := (ih (t + v)).2 s h
        simp only [List.map_cons, List.sum_cons, hd, Option.getD_some]
        omega

/-- C5 counterexample: a line decoding to `none` does not contribute `0`; the
whole sum fails (the Python source raises a `TypeError`). -/
theorem sum_lines_none_counterexample :
    sum_lines [chars ("xyz")] false = none ∧
      sum_lines [chars ("xyz")] false ≠ some 0 := by
  refine ⟨?_, ?_⟩ <;> decide

/-- C5 (amended): `sum_lines` strips each line, decodes it, and returns the
sum of the decoded values; but a line that decodes to `none` makes the whole
sum fail (a `TypeError` in the source) instead of contributing `0`. -/
theorem sum_lines_spec (lines : List (List Char)) (wc : Bool) :
    (sum_lines lines wc = none ↔
      ∃ l ∈ lines, decode_line (pyStrip l) wc = none) ∧
    ∀ s, sum_lines lines wc = some s →
      s = (lines.map (fun l => (decode_line (pyStrip l) wc).getD 0)).sum := by
  unfold sum_lines
  refine ⟨(sum_foldl wc lines 0).1, fun s h => ?_⟩
  have := (sum_foldl wc lines 0).2 s h
  simpa using this

/-- C5 witness: the amended statement applied to a concrete file. -/
theorem sum_lines_spec_witness : sum_lines [chars ("abc")] false = none :=
  (sum_lines_spec [chars ("abc")] false).1.mpr ⟨chars ("abc"), by decide, by decide⟩

/-! ### Claim C2 -/

theorem validate_iff (game : List DiceGroup) (bag : DiceGroup) :
    validate_game game bag = true ↔
      ∀ g ∈ game, g.num_red ≤ bag.num_red ∧ g.num_green ≤ bag.num_green ∧
        g.num_blue ≤ bag.num_blue := by
  induction game with
  | nil => simp [validate_game]
  | cons g rest ih =>
    simp only [validate_game]
    split_ifs with hgt
    · simp only [Bool.false_eq_true, false_iff]
      intro hall
      have hb := hall g (List.mem_cons_self _ _)
      unfold DiceGroup.gt at hgt
      simp only [Bool.or_eq_true, decide_eq_true_eq] at hgt
      rcases hgt with (h | h) | h <;> omega
    · rw [ih]
      unfold DiceGroup.gt at hgt
      simp only [Bool.or_eq_true, decide_eq_true_eq, not_or, not_lt] at hgt
      obtain ⟨⟨hb, hg⟩, hr⟩ := hgt
      simp only [List.forall_mem_cons]
      constructor
      · intro hrest
        exact ⟨⟨hr, hg, hb⟩, hrest⟩
      · intro hall
        exact hall.2

/-- C2: `validate_game(draws, bag)` is true iff every draw's every colour
count is at most the bag's corresponding count; equivalently, iff no draw
exceeds the bag under the any-colour-strictly-greater relation. -/
theorem validate_game_correct (game : List DiceGroup) (bag : DiceGroup) :
    (validate_game game bag = true ↔
      ∀ g ∈ game, g.num_red ≤ bag.num_red ∧ g.num_green ≤ bag.num_green ∧
        g.num_blue ≤ bag.num_blue) ∧
    (validate_game game bag = true ↔
      ¬ ∃ g ∈ game, DiceGroup.gt g bag = true) := by
  refine ⟨validate_iff game bag, ?_⟩
  rw [validate_iff]
  constructor
  · rintro hall ⟨g, hg, hgt⟩
    have hb := hall g hg
    unfold DiceGroup.gt at hgt
    simp only [Bool.or_eq_true, decide_eq_true_eq] at hgt
    rcases hgt with (h | h) | h <;> omega
  · intro hne g hg
    cases hgt : DiceGroup.gt g bag with
    | true => exact absurd ⟨g, hg, hgt⟩ hne
    | false =>
      unfold DiceGroup.gt at hgt
      simp only [Bool.or_eq_false_iff, decide_eq_false_iff_not, not_lt] at hgt
      obtain ⟨⟨hb, hg⟩, hr⟩ := hgt
      exact ⟨hr, hg, hb⟩

/-! ### Claim C3 -/

theorem mdg_ge_init :
    ∀ (gs : List DiceGroup) (a : Int × Int × Int),
    a.1 ≤ (gs.foldl mdgStep a).1 ∧ a.2.1 ≤ (gs.foldl mdgStep a).2.1 ∧
      a.2.2 ≤ (gs.foldl mdgStep a).2.2 := by
  intro gs
  induction gs with
  | nil => intro a; simp
  | cons g rest ih =>
    intro a
    rw [List.foldl_cons]
    have h := ih (mdgStep a g)
    refine ⟨le_trans ?_ h.1, le_trans ?_ h.2.1, le_trans ?_ h.2.2⟩ <;>
      simp [mdgStep]

theorem mdg_mem_le :
    ∀ (gs : List DiceGroup) (a : Int × Int × Int) (g : DiceGroup), g ∈ gs →
    g.num_red ≤ (gs.foldl mdgStep a).1 ∧
      g.num_green ≤ (gs.foldl mdgStep a).2.1 ∧
      g.num_blue ≤ (gs.foldl mdgStep a).2.2 := by
  intro gs
  induction gs with
  | nil => intro a g hg; simp at hg
  | cons g0 rest ih =>
    intro a g hg
    rw [List.foldl_cons]
    rcases List.mem_cons.mp hg with rfl | hg'
    · have h := mdg_ge_init rest (mdgStep a g)
      refine ⟨le_trans ?_ h.1, le_trans ?_ h.2.1, le_trans ?_ h.2.2⟩ <;>
        simp [mdgStep]
    · exact ih (mdgStep a g0) g hg'

theorem mdg_attained :
    ∀ (gs : List DiceGroup) (a : Int × Int × Int),
    ((gs.foldl mdgStep a).1 = a.1 ∨ ∃ g ∈ gs, (gs.foldl mdgStep a).1 = g.num_red) ∧
    ((gs.foldl mdgStep a).2.1 = a.2.1 ∨
      ∃ g ∈ gs, (gs.foldl mdgStep a).2.1 = g.num_green) ∧
    ((gs.foldl mdgStep a).2.2 = a.2.2 ∨
      ∃ g ∈ gs, (gs.foldl mdgStep a).2.2 = g.num_blue) := by
  intro gs
  induction gs with
  | nil => intro a; simp
  | cons g0 rest ih =>
    intro a
    rw [List.foldl_cons]
    obtain ⟨h1, h2, h3⟩ := ih (mdgStep a g0)
    refine ⟨?_, ?_, ?_⟩
    · rcases h1 with h | ⟨g, hg, hgl⟩
      · rw [h]
        rcases max_choice a.1 g0.num_red with hm | hm
        · exact Or.inl (by simp [mdgStep, hm])
        · exact Or.inr ⟨g0, List.mem_cons_self _ _, by simp [mdgStep, hm]⟩
      · exact Or.inr ⟨g, List.mem_cons_of_mem _ hg, hgl⟩
    · rcases h2 with h | ⟨g, hg, hgl⟩
      · rw [h]
        rcases max_choice a.2.1 g0.num_green with hm | hm
        · exact Or.inl (by simp [mdgStep, hm])
        · exact Or.inr ⟨g0, List.mem_cons_self _ _, by simp [mdgStep, hm]⟩
      · exact Or.inr ⟨g, List.mem_cons_of_mem _ hg, hgl⟩
    · rcases h3 with h | ⟨g, hg, hgl⟩
      · rw [h]
        rcases max_choice a.2.2 g0.num_blue with hm | hm
        · exact Or.inl (by simp [mdgStep, hm])
        · exact Or.inr ⟨g0, List.mem_cons_self _ _, by simp [mdgStep, hm]⟩
      · exact Or.inr ⟨g, List.mem_cons_of_mem _ hg, hgl⟩

theorem mdg_le_of :
    ∀ (gs : List DiceGroup) (a : Int × Int × Int) (x y z : Int),
    a.1 ≤ x → a.2.1 ≤ y → a.2.2 ≤ z →
    (∀ g ∈ gs, g.num_red ≤ x ∧ g.num_green ≤ y ∧ g.num_blue ≤ z) →
    (gs.foldl mdgStep a).1 ≤ x ∧ (gs.foldl mdgStep a).2.1 ≤ y ∧
      (gs.foldl mdgStep a).2.2 ≤ z := by
  intro gs
  induction gs with
  | nil => intro a x y z h1 h2 h3 _; simpa using ⟨h1, h2, h3⟩
  | cons g0 rest ih =>
    intro a x y z h1 h2 h3 hall
    rw [List.foldl_cons]
    have hg0 := hall g0 (List.mem_cons_self _ _)
    refine ih (mdgStep a g0) x y z ?_ ?_ ?_
      (fun g hg => hall g (List.mem_cons_of_mem _ hg)) <;>
      simp [mdgStep, max_le_iff] <;> tauto

/-- C3: `max_dice_group` computes, per colour, the maximum over all draws (for
well-formed, non-negative draws); it is the minimal bag validating the draws:
a non-negative bag validates iff it dominates the maxima per colour.  On the
draws `[(10,1,2),(5,3,4)]` it yields `(10,3,4)`, whose power is `120`. -/
theorem max_dice_group_correct (draws : List DiceGroup)
    (hnn : ∀ g ∈ draws, 0 ≤ g.num_red ∧ 0 ≤ g.num_green ∧ 0 ≤ g.num_blue) :
    (∀ g ∈ draws,
        g.num_red ≤ (max_dice_group draws).num_red ∧
        g.num_green ≤ (max_dice_group draws).num_green ∧
        g.num_blue ≤ (max_dice_group draws).num_blue) ∧
    (draws ≠ [] →
        (∃ g ∈ draws, (max_dice_group draws).num_red = g.num_red) ∧
        (∃ g ∈ draws, (max_dice_group draws).num_green = g.num_green) ∧
        (∃ g ∈ draws, (max_dice_group draws).num_blue = g.num_blue)) ∧
    (∀ bag : DiceGroup, 0 ≤ bag.num_red → 0 ≤ bag.num_green →
      0 ≤ bag.num_blue →
        (validate_game draws bag = true ↔
          (max_dice_group draws).num_red ≤ bag.num_red ∧
          (max_dice_group draws).num_green ≤ bag.num_green ∧
          (max_dice_group draws).num_blue ≤ bag.num_blue)) ∧
    max_dice_group [⟨10, 1, 2⟩, ⟨5, 3, 4⟩] = ⟨10, 3, 4⟩ ∧
    DiceGroup.power ⟨10, 3, 4⟩ = 120 := by
  have hred : (max_dice_group draws).num_red = (draws.foldl mdgStep (0, 0, 0)).1 := rfl
  have hgreen : (max_dice_group draws).num_green =
      (draws.foldl mdgStep (0, 0, 0)).2.1 := rfl
  have hblue : (max_dice_group draws).num_blue =
      (draws.foldl mdgStep (0, 0, 0)).2.2 := rfl
  refine ⟨?_, ?_, ?_, by decide, by decide⟩
  · intro g hg
    rw [hred, hgreen, hblue]
    exact mdg_mem_le draws (0, 0, 0) g hg
  · intro hne
    obtain ⟨h1, h2, h3⟩ := mdg_attained draws (0, 0, 0)
    obtain ⟨g0, hg0⟩ : ∃ g, g ∈ draws := by
      cases draws with
      | nil => exact absurd rfl hne
      | cons g0 rest => exact ⟨g0, List.mem_cons_self _ _⟩
    refine ⟨?_, ?_, ?_⟩
    · rcases h1 with h | hex
      · refine ⟨g0, hg0, ?_⟩
        rw [hred, h]
        have hle := (mdg_mem_le draws (0, 0, 0) g0 hg0).1
        have hge := (hnn g0 hg0).1
        rw [h] at hle
        omega
      · rw [hred]; exact hex
    · rcases h2 with h | hex
      · refine ⟨g0, hg0, ?_⟩
        rw [hgreen, h]
        have hle := (mdg_mem_le draws (0, 0, 0) g0 hg0).2.1
        have hge := (hnn g0 hg0).2.1
        rw [h] at hle
        have h0 : ((0, 0, 0) : Int × Int × Int).2.1 = 0 := rfl
        rw [h0] at hle ⊢
        omega
      · rw [hgreen]; exact hex
    · rcases h3 with h | hex
      · refine ⟨g0, hg0, ?_⟩
        rw [hblue, h]
        have hle := (mdg_mem_le draws (0, 0, 0) g0 hg0).2.2
        have hge := (hnn g0 hg0).2.2
        rw [h] at hle
        have h0 : ((0, 0, 0) : Int × Int × Int).2.2 = 0 := rfl
        rw [h0] at hle ⊢
        omega
      · rw [hblue]; exact hex
  · intro bag hbr hbg hbb
    rw [validate_iff, hred, hgreen, hblue]
    constructor
    · intro hall
      exact mdg_le_of draws (0, 0, 0) _ _ _ hbr hbg hbb hall
    · intro ⟨h1, h2, h3⟩ g hg
      obtain ⟨m1, m2, m3⟩ := mdg_mem_le draws (0, 0, 0) g hg
      exact ⟨le_trans m1 h1, le_trans m2 h2, le_trans m3 h3⟩

/-- C3 witness: the doctest draws, with all hypotheses discharged. -/
theorem max_dice_group_correct_witness :
    max_dice_group [⟨10, 1, 2⟩, ⟨5, 3, 4⟩] = ⟨10, 3, 4⟩ :=
  (max_dice_group_correct [⟨10, 1, 2⟩, ⟨5, 3, 4⟩] (by decide)).2.2.2.1

/-! ### Claim C8 -/

/-- C8: the `__gt__`/`__lt__` "exceeds" relation is not antisymmetric: two
groups can each exceed the other, one per colour. -/
theorem dice_ordering_not_antisymm :
    ∃ A B : DiceGroup, DiceGroup.gt A B = true ∧ DiceGroup.gt B A = true ∧
      DiceGroup.lt A B = true ∧ DiceGroup.lt B A = true :=
  ⟨⟨1, 0, 0⟩, ⟨0, 1, 0⟩, by decide, by decide, by decide, by decide⟩

/-! ### Claim C6 -/

theorem pySplit_ne_nil (sep : Char) : ∀ s : List Char, pySplit sep s ≠ [] := by
  intro s
  induction s with
  | nil => simp [pySplit]
  | cons c rest ih =>
    simp only [pySplit]
    split_ifs with h
    · simp
    · rcases hr : pySplit sep rest with _ | ⟨x, t⟩ <;> simp [hr]

theorem pySplit_single (sep : Char) :
    ∀ (s x : List Char), pySplit sep s = [x] → x = s := by
  intro s
  induction s with
  | nil =>
    intro x h
    simp only [pySplit, List.cons.injEq] at h
    exact h.1.symm
  | cons c rest ih =>
    intro x h
    simp only [pySplit] at h
    split_ifs at h with hc
    · simp only [List.cons.injEq] at h
      exact absurd h.2 (pySplit_ne_nil sep rest)
    · rcases hr : pySplit sep rest with _ | ⟨y, t⟩
      · exact absurd hr (pySplit_ne_nil sep rest)
      · rw [hr] at h
        simp only [List.cons.injEq] at h
        obtain ⟨hx, ht⟩ := h
        subst ht
        rw [← hx, ih y hr]

theorem afterFirst_two :
    ∀ s : List Char, (pySplit ':' s).length = 2 →
    afterFirstColon s = some ((pySplit ':' s).getD 1 []) := by
  intro s
  induction s with
  | nil => intro h; simp [pySplit] at h
  | cons c rest ih =>
    intro h
    by_cases hc : c = ':'
    · subst hc
      have hps : pySplit ':' (':' :: rest) = [] :: pySplit ':' rest := by
        simp [pySplit]
      rw [hps] at h ⊢
      simp only [List.length_cons] at h
      have hlen1 : (pySplit ':' rest).length = 1 := by omega
      obtain ⟨x, hx⟩ := List.length_eq_one.mp hlen1
      rw [hx]
      have : x = rest := pySplit_single ':' rest x hx
      subst this
      simp [afterFirstColon]
    · rcases hr : pySplit ':' rest with _ | ⟨y, t⟩
      · exact absurd hr (pySplit_ne_nil ':' rest)
      · have hps : pySplit ':' (c :: rest) = (c :: y) :: t := by
          simp only [pySplit, if_neg hc, hr]
        rw [hps] at h ⊢
        simp only [List.length_cons] at h
        have hlen : (pySplit ':' rest).length = 2 := by rw [hr]; simp; omega
        have := ih hlen
        rw [hr] at this
        simp only [afterFirstColon, if_neg hc]
        simpa using this

/-- C6 counterexample: on a line with a second colon, `parse_game_string`
keeps only the text between the first and second colon, not the entire
remainder of the line as the claim states. -/
theorem parse_game_string_counterexample :
    parse_game_string (chars ("Game 1: 1 red: 2 blue")) = some [⟨0, 0, 1⟩] ∧
      parse_game_string_claimed (chars ("Game 1: 1 red: 2 blue")) =
        some [⟨1, 0, 0⟩] ∧
      parse_game_string (chars ("Game 1: 1 red: 2 blue")) ≠
        parse_game_string_claimed (chars ("Game 1: 1 red: 2 blue")) := by
  refine ⟨?_, ?_, ?_⟩ <;> decide

/-- C6 (amended): `parse_game_string` splits on colons and keeps the segment
between the first and second colon (discarding any text after a second
colon); on lines with exactly one colon this is the entire remainder and the
described behaviour holds, as on the example line. -/
theorem parse_game_string_amended :
    (∀ s : List Char, (pySplit ':' s).length = 2 →
      parse_game_string s = parse_game_string_claimed s) ∧
    parse_game_string
        (chars ("Game 1: 1 green, 7 red; 1 green, 9 red, 3 blue")) =
      some [⟨0, 1, 7⟩, ⟨3, 1, 9⟩] := by
  constructor
  · intro s h
    have ha := afterFirst_two s h
    rcases hs : pySplit ':' s with _ | ⟨a, _ | ⟨b, _ | _⟩⟩
    · exact absurd hs (pySplit_ne_nil ':' s)
    · rw [hs] at h; simp at h
    · rw [hs] at ha
      unfold parse_game_string parse_game_string_claimed
      rw [hs, ha]
      simp [List.getD]
    · rw [hs] at h; simp at h
  · decide

/-- C6 witness: the amended statement applied to a one-colon line. -/
theorem parse_game_string_amended_witness :
    parse_game_string (chars ("Game 1: 3 blue")) =
      parse_game_string_claimed (chars ("Game 1: 3 blue")) :=
  parse_game_string_amended.1 (chars ("Game 1: 3 blue")) (by decide)

/-- C2 witness: the correctness statement applied to a concrete valid game
from the doctests. -/
theorem validate_game_correct_witness :
    validate_game [⟨3, 0, 4⟩, ⟨6, 2, 1⟩, ⟨0, 2, 0⟩] ⟨14, 13, 12⟩ = true :=
  (validate_game_correct [⟨3, 0, 4⟩, ⟨6, 2, 1⟩, ⟨0, 2, 0⟩] ⟨14, 13, 12⟩).1.mpr
    (by decide)

/-- C10 witness: the two sides agree on a concrete line. -/
theorem scan_sides_agree_witness :
    (scan (chars ("a1b")) false).1 = none ↔
      (scan (chars ("a1b")) false).2 = none :=
  (scan_sides_agree (chars ("a1b")) false).1
